import Mathlib

/-!
Verification development for the himalaya-facing layer of the `pimalaya/tui`
repository.  The definitions below are shallow embeddings of:

* the alias store / id mapper used to translate backend-native message
  identifiers into short user-facing identifiers (`src/himalaya/id_mapper.rs`
  is declared in `src/himalaya/mod.rs` but its body is not part of the source
  tree under review, so the store is modelled from the specification);
* the envelope and thread translators of `src/himalaya/config.rs`
  (`Envelopes::try_from_backend`, `ThreadedEnvelopes::try_from_backend`,
  `From<Iter<..>> for Accounts`);
* the backend capability dispatcher of `src/himalaya/backend.rs`
  (`ContextBuilder`, its `BackendContextBuilder` implementation, `build`,
  and `Backend::build_id_mapper`).
-/

/-! ### Decimal rendering of short ids

Modelled from the spec: a short id is a positive integer presented to the
user in its textual (decimal) form.  `shortIdStr` renders a natural number
in base ten; it is proved injective below, which is the only property of
the rendering the development relies on. -/

def shortIdStr (n : Nat) : String :=
  if n = 0 then "0" else String.mk (((Nat.digits 10 n).map Nat.digitChar).reverse)

/-! ### Alias store

Modelled from the spec: the persistent Alias Store variant is a durable
key-value table of records `(short_id : positive integer, native_id :
string)`, unique in both directions, with a monotonic next-id counter
starting at 1; `get_or_create_alias` returns the existing alias or
allocates the next unused integer, gaps never reused. -/

structure AliasStore where
  pairs : List (Nat × String)
  next : Nat
deriving DecidableEq

def AliasStore.empty : AliasStore := ⟨[], 1⟩

def AliasStore.get_or_create_alias (s : AliasStore) (nid : String) :
    Nat × AliasStore :=
  match s.pairs.find? (fun p => p.2 == nid) with
  | some p => (p.1, s)
  | none => (s.next, ⟨s.pairs ++ [(s.next, nid)], s.next + 1⟩)

inductive AliasError where
  | unknownAlias : AliasError
deriving DecidableEq

def AliasStore.get_id (s : AliasStore) (sid : Nat) : Except AliasError String :=
  match s.pairs.find? (fun p => p.1 == sid) with
  | some p => .ok p.2
  | none => .error .unknownAlias

/-- The short id (if any) a store has already bound to a native id. -/
def AliasStore.lookupN (s : AliasStore) (x : String) : Option Nat :=
  (s.pairs.find? (fun p => p.2 == x)).map Prod.fst

/-- The store invariant: the allocated short ids are exactly
`1, 2, …, next - 1` in allocation order, and native ids are never bound
twice. -/
def AliasStore.WF (s : AliasStore) : Prop :=
  s.pairs.map Prod.fst = List.range' 1 (s.next - 1) ∧
  1 ≤ s.next ∧
  (s.pairs.map Prod.snd).Nodup

/-! ### Id mapper

The id mapper of `src/himalaya/backend.rs` is either the pass-through
`Dummy` variant or the persistent store-backed variant.  Modelled from the
spec: the pass-through variant implements every operation as the identity
on the native id's string form; the persistent variant wraps the alias
store and renders allocated short ids in decimal. -/

inductive IdMapper where
  | Dummy : IdMapper
  | Mapper : AliasStore → IdMapper
deriving DecidableEq

def IdMapper.get_or_create_alias : IdMapper → String → String × IdMapper
  | .Dummy, nid => (nid, .Dummy)
  | .Mapper s, nid =>
      let r := s.get_or_create_alias nid
      (shortIdStr r.1, .Mapper r.2)

def IdMapper.get_id : IdMapper → Nat → Except AliasError String
  | .Dummy, sid => .ok (shortIdStr sid)
  | .Mapper s, sid => s.get_id sid

def IdMapper.get_ids : IdMapper → List Nat → Except AliasError (List String)
  | _, [] => .ok []
  | m, sid :: rest =>
      match m.get_id sid with
      | .error e => .error e
      | .ok nid =>
          match m.get_ids rest with
          | .error e => .error e
          | .ok nids => .ok (nid :: nids)

def IdMapper.create_alias (m : IdMapper) (nid : String) : String × IdMapper :=
  m.get_or_create_alias nid

def IdMapper.WF : IdMapper → Prop
  | .Dummy => True
  | .Mapper s => s.WF

/-- The aliases already assigned by a mapper state: the pass-through
variant assigns every native id to itself, the persistent variant consults
its table. -/
def IdMapper.lookup : IdMapper → String → Option String
  | .Dummy, nid => some nid
  | .Mapper s, nid =>
      (s.pairs.find? (fun p => p.2 == nid)).map (fun p => shortIdStr p.1)

/-! ### Backend selections

From `src/himalaya/config.rs` (`Backend`, `SendingBackend`, lines 407-499).
The per-variant connection configs carried by the Rust enum variants are
opaque to every claim (the code only matches on the variant), so the
embedding drops the payloads. -/

inductive Backend where
  | None : Backend
  | Imap : Backend
  | Maildir : Backend
  | Notmuch : Backend
deriving DecidableEq

/-- `impl ToString for Backend` (config.rs lines 421-433). -/
def Backend.toStr : Backend → String
  | .None => "None"
  | .Imap => "IMAP"
  | .Maildir => "Maildir"
  | .Notmuch => "Notmuch"

inductive SendingBackend where
  | None : SendingBackend
  | Smtp : SendingBackend
  | Sendmail : SendingBackend
deriving DecidableEq

/-- `impl ToString for SendingBackend` (config.rs lines 489-499). -/
def SendingBackend.toStr : SendingBackend → String
  | .None => "None"
  | .Smtp => "SMTP"
  | .Sendmail => "Sendmail"

/-- Which cargo features are compiled into the build.  The Rust source
guards every variant-specific code path with `#[cfg(feature = ...)]`; the
embedding carries the flags explicitly so that both compilation outcomes
are representable. -/
structure Features where
  imap : Bool
  maildir : Bool
  notmuch : Bool
  smtp : Bool
  sendmail : Bool
  sled : Bool
deriving DecidableEq

/-- `Backend::build_id_mapper` (src/himalaya/backend.rs lines 354-366):
selects the persistent store-backed mapper exactly for a maildir or
notmuch backend when the `sled` persistence feature is compiled in, and
the pass-through mapper otherwise.  `loaded` stands for the store state
`IdMapper::new` loads from disk. -/
def build_id_mapper (feat : Features) (backend : Option Backend)
    (loaded : AliasStore) : IdMapper :=
  if feat.maildir ∧ feat.sled ∧ backend = some .Maildir then .Mapper loaded
  else if feat.notmuch ∧ feat.sled ∧ backend = some .Notmuch then .Mapper loaded
  else .Dummy

/-! ### Backend capability dispatcher

From `src/himalaya/backend.rs` (`ContextBuilder`, lines 95-346).  The
per-variant initializers (`ImapContextBuilder`, ...) are opaque
capability-tagged values; only their presence matters to dispatch, so they
are modelled as `Option Unit`.  A variant whose feature is not compiled in
cannot exist as a selection value in Rust (the field and the match arm are
absent); the embedding represents that configuration explicitly and
resolves it to unsupported, matching the specification. -/

structure ContextBuilder where
  feat : Features
  backend : Option Backend
  sending_backend : Option SendingBackend
  imap : Option Unit
  maildir : Option Unit
  notmuch : Option Unit
  smtp : Option Unit
  sendmail : Option Unit
deriving DecidableEq

/-- `ContextBuilder::new` (backend.rs lines 112-201): each initializer is
populated exactly when the matching variant is the account's selection
(and its feature is compiled in).  The source reads the sending selection
through the `message.send.backend` option chain; the chained value is
passed here directly. -/
def ContextBuilder.new (feat : Features) (backend : Option Backend)
    (sending : Option SendingBackend) : ContextBuilder :=
  { feat := feat
    backend := backend
    sending_backend := sending
    imap := if feat.imap then
        backend.bind (fun b => match b with | .Imap => some () | _ => none)
      else none
    maildir := if feat.maildir then
        backend.bind (fun b => match b with | .Maildir => some () | _ => none)
      else none
    notmuch := if feat.notmuch then
        backend.bind (fun b => match b with | .Notmuch => some () | _ => none)
      else none
    smtp := if feat.smtp then
        sending.bind (fun b => match b with | .Smtp => some () | _ => none)
      else none
    sendmail := if feat.sendmail then
        sending.bind (fun b => match b with | .Sendmail => some () | _ => none)
      else none }

/-- The session a dispatched read operation resolves to. -/
inductive ReadKind where
  | imap : ReadKind
  | maildir : ReadKind
  | notmuch : ReadKind
deriving DecidableEq

/-- The session a dispatched send operation resolves to. -/
inductive SendKind where
  | smtp : SendKind
  | sendmail : SendKind
deriving DecidableEq

/-- `list_folders` dispatch (backend.rs lines 208-218).  The
`*_with_some` helper of the email library yields the feature exactly when
the sub-builder option is populated (each read-capable sub-builder
implements all seven read operations). -/
def ContextBuilder.list_folders (cb : ContextBuilder) : Option ReadKind :=
  match cb.backend with
  | none => none
  | some .None => none
  | some .Imap => if cb.feat.imap then
      (match cb.imap with | some _ => some .imap | none => none) else none
  | some .Maildir => if cb.feat.maildir then
      (match cb.maildir with | some _ => some .maildir | none => none) else none
  | some .Notmuch => if cb.feat.notmuch then
      (match cb.notmuch with | some _ => some .notmuch | none => none) else none

/-- `list_envelopes` dispatch (backend.rs lines 220-230). -/
def ContextBuilder.list_envelopes (cb : ContextBuilder) : Option ReadKind :=
  match cb.backend with
  | none => none
  | some .None => none
  | some .Imap => if cb.feat.imap then
      (match cb.imap with | some _ => some .imap | none => none) else none
  | some .Maildir => if cb.feat.maildir then
      (match cb.maildir with | some _ => some .maildir | none => none) else none
  | some .Notmuch => if cb.feat.notmuch then
      (match cb.notmuch with | some _ => some .notmuch | none => none) else none

/-- `get_messages` dispatch (backend.rs lines 232-242). -/
def ContextBuilder.get_messages (cb : ContextBuilder) : Option ReadKind :=
  match cb.backend with
  | none => none
  | some .None => none
  | some .Imap => if cb.feat.imap then
      (match cb.imap with | some _ => some .imap | none => none) else none
  | some .Maildir => if cb.feat.maildir then
      (match cb.maildir with | some _ => some .maildir | none => none) else none
  | some .Notmuch => if cb.feat.notmuch then
      (match cb.notmuch with | some _ => some .notmuch | none => none) else none

/-- `add_message` dispatch (backend.rs lines 244-254). -/
def ContextBuilder.add_message (cb : ContextBuilder) : Option ReadKind :=
  match cb.backend with
  | none => none
  | some .None => none
  | some .Imap => if cb.feat.imap then
      (match cb.imap with | some _ => some .imap | none => none) else none
  | some .Maildir => if cb.feat.maildir then
      (match cb.maildir with | some _ => some .maildir | none => none) else none
  | some .Notmuch => if cb.feat.notmuch then
      (match cb.notmuch with | some _ => some .notmuch | none => none) else none

/-- `send_message` dispatch (backend.rs lines 256-264): routed by the
sending selection. -/
def ContextBuilder.send_message (cb : ContextBuilder) : Option SendKind :=
  match cb.sending_backend with
  | none => none
  | some .None => none
  | some .Smtp => if cb.feat.smtp then
      (match cb.smtp with | some _ => some .smtp | none => none) else none
  | some .Sendmail => if cb.feat.sendmail then
      (match cb.sendmail with | some _ => some .sendmail | none => none) else none

/-- `copy_messages` dispatch (backend.rs lines 266-276). -/
def ContextBuilder.copy_messages (cb : ContextBuilder) : Option ReadKind :=
  match cb.backend with
  | none => none
  | some .None => none
  | some .Imap => if cb.feat.imap then
      (match cb.imap with | some _ => some .imap | none => none) else none
  | some .Maildir => if cb.feat.maildir then
      (match cb.maildir with | some _ => some .maildir | none => none) else none
  | some .Notmuch => if cb.feat.notmuch then
      (match cb.notmuch with | some _ => some .notmuch | none => none) else none

/-- `move_messages` dispatch (backend.rs lines 278-288). -/
def ContextBuilder.move_messages (cb : ContextBuilder) : Option ReadKind :=
  match cb.backend with
  | none => none
  | some .None => none
  | some .Imap => if cb.feat.imap then
      (match cb.imap with | some _ => some .imap | none => none) else none
  | some .Maildir => if cb.feat.maildir then
      (match cb.maildir with | some _ => some .maildir | none => none) else none
  | some .Notmuch => if cb.feat.notmuch then
      (match cb.notmuch with | some _ => some .notmuch | none => none) else none

/-- `delete_messages` dispatch (backend.rs lines 290-300). -/
def ContextBuilder.delete_messages (cb : ContextBuilder) : Option ReadKind :=
  match cb.backend with
  | none => none
  | some .None => none
  | some .Imap => if cb.feat.imap then
      (match cb.imap with | some _ => some .imap | none => none) else none
  | some .Maildir => if cb.feat.maildir then
      (match cb.maildir with | some _ => some .maildir | none => none) else none
  | some .Notmuch => if cb.feat.notmuch then
      (match cb.notmuch with | some _ => some .notmuch | none => none) else none

/-- Per-variant asynchronous initialization outcome of this particular
build: what `imap.build().await` (etc.) would return if attempted.  Errors
are modelled as strings. -/
structure BuildOutcomes where
  imap : Except String Unit
  maildir : Except String Unit
  notmuch : Except String Unit
  smtp : Except String Unit
  sendmail : Except String Unit

/-- The per-account live handle (backend.rs lines 46-58): one optional
live session per variant. -/
structure Context where
  imap : Option Unit
  maildir : Option Unit
  notmuch : Option Unit
  smtp : Option Unit
  sendmail : Option Unit
deriving DecidableEq

/-- One arm of `ContextBuilder::build`:
`match self.x { Some(x) => Some(x.build().await?), None => None }`. -/
def buildStep (sel : Option Unit) (outcome : Except String Unit) :
    Except String (Option Unit) :=
  match sel with
  | some _ =>
      match outcome with
      | .ok _ => .ok (some ())
      | .error e => .error e
  | none => .ok none

/-- `ContextBuilder::build` (backend.rs lines 302-346): attempts the
variants in source order, propagating the first initialization error via
`?`. -/
def ContextBuilder.build (cb : ContextBuilder) (o : BuildOutcomes) :
    Except String Context :=
  match buildStep cb.imap o.imap with
  | .error e => .error e
  | .ok imap =>
    match buildStep cb.maildir o.maildir with
    | .error e => .error e
    | .ok maildir =>
      match buildStep cb.notmuch o.notmuch with
      | .error e => .error e
      | .ok notmuch =>
        match buildStep cb.smtp o.smtp with
        | .error e => .error e
        | .ok smtp =>
          match buildStep cb.sendmail o.sendmail with
          | .error e => .error e
          | .ok sendmail => .ok ⟨imap, maildir, notmuch, smtp, sendmail⟩

/-! ### Envelope translation

From `src/himalaya/config.rs` (`Envelopes::try_from_backend`, lines
1204-1232, and `ThreadedEnvelopes::try_from_backend`, lines 1354-1415). -/

/-- A backend-native envelope (the `email` library's envelope, restricted
to the fields the translators read).  `date` carries the result of the
external `format_date` / date rendering; the translators treat it as an
opaque string. -/
structure NEnvelope where
  id : String
  message_id : String
  subject : String
  from_name : Option String
  from_addr : String
  to_name : Option String
  to_addr : String
  flags : List String
  date : String
  has_attachment : Bool
deriving DecidableEq

/-- config.rs lines 1126-1130. -/
structure Mailbox where
  name : Option String
  addr : String
deriving DecidableEq

/-- The user-facing envelope (config.rs lines 1132-1141).  The Rust field
`from` is a Lean keyword, rendered `from_`. -/
structure REnvelope where
  id : String
  flags : List String
  subject : String
  from_ : Mailbox
  to_ : Mailbox
  date : String
  has_attachment : Bool
deriving DecidableEq

/-- `Envelopes::try_from_backend` (config.rs lines 1204-1232): one output
envelope per native envelope, in backend order, id replaced by the
resolved-or-created alias, all other fields copied.  The id mapper state
is threaded through the iteration. -/
def Envelopes.try_from_backend : IdMapper → List NEnvelope →
    List REnvelope × IdMapper
  | m, [] => ([], m)
  | m, e :: rest =>
      let r1 := m.get_or_create_alias e.id
      let r2 := Envelopes.try_from_backend r1.2 rest
      ({ id := r1.1, flags := e.flags, subject := e.subject,
         from_ := ⟨e.from_name, e.from_addr⟩, to_ := ⟨e.to_name, e.to_addr⟩,
         date := e.date, has_attachment := e.has_attachment } :: r2.1, r2.2)

/-- A node of the threaded graph (the `email` library's
`ThreadedEnvelope`): the graph keys nodes by this whole value. -/
structure TNode where
  id : String
  message_id : String
  subject : String
  from_ : String
  date : String
deriving DecidableEq

/-- The synthetic root substituted for absent parents (config.rs lines
1399-1405); the defaulted date is modelled as the empty string. -/
def rootNode : TNode := ⟨"0", "0", "", "", ""⟩

/-- The email library's `Envelope::as_threaded`: project the envelope onto
a graph node (the displayed sender falls back from name to address). -/
def NEnvelope.as_threaded (e : NEnvelope) : TNode :=
  ⟨e.id, e.message_id, e.subject, e.from_name.getD e.from_addr, e.date⟩

/-- petgraph's `DiGraphMap::add_edge`: a graph map holds at most one edge
per ordered node pair, so re-adding an existing pair replaces its weight
instead of adding a parallel edge. -/
def addEdge (g : List (TNode × TNode × Nat)) (a b : TNode) (w : Nat) :
    List (TNode × TNode × Nat) :=
  if (g.find? (fun x => x.1 == a && x.2.1 == b)).isSome then
    g.map (fun x => if x.1 == a && x.2.1 == b then (a, b, w) else x)
  else g ++ [(a, b, w)]

/-- `HashMap::get` on the translated envelope map. -/
def lookupT (tmap : List (String × NEnvelope)) (k : String) :
    Option NEnvelope :=
  (tmap.find? (fun p => p.1 == k)).map Prod.snd

/-- The graph-rebuilding closure (config.rs lines 1389-1412): for each
translated edge, the child is fetched with `.unwrap()` — a missing child
is a panic, modelled as `none` — while a missing parent is replaced by the
synthetic root. -/
def buildGraph (tmap : List (String × NEnvelope)) :
    List (String × String × Nat) → List (TNode × TNode × Nat) →
    Option (List (TNode × TNode × Nat))
  | [], g => some g
  | (a, b, w) :: rest, g =>
      match lookupT tmap b with
      | none => none
      | some eb =>
          match lookupT tmap a with
          | some ea => buildGraph tmap rest (addEdge g ea.as_threaded eb.as_threaded w)
          | none => buildGraph tmap rest (addEdge g rootNode eb.as_threaded w)

/-- Step 1 of `ThreadedEnvelopes::try_from_backend` (config.rs lines
1358-1366): translate both endpoints of every native edge, threading the
id mapper. -/
def translateEdges : IdMapper → List (String × String × Nat) →
    List (String × String × Nat) × IdMapper
  | m, [] => ([], m)
  | m, (a, b, w) :: rest =>
      let ra := m.get_or_create_alias a
      let rb := ra.2.get_or_create_alias b
      let rr := translateEdges rb.2 rest
      ((ra.1, rb.1, w) :: rr.1, rr.2)

/-- Step 2 of `ThreadedEnvelopes::try_from_backend` (config.rs lines
1368-1387): rebuild the envelope map keyed by alias, copying every other
field. -/
def translateMap : IdMapper → List NEnvelope →
    List (String × NEnvelope) × IdMapper
  | m, [] => ([], m)
  | m, e :: rest =>
      let ri := m.get_or_create_alias e.id
      let rr := translateMap ri.2 rest
      ((ri.1, { e with id := ri.1 }) :: rr.1, rr.2)

/-- A backend-native threaded listing: the fetched envelope map (values
only — the source iterates the map's values) and the reply graph's edges
`(parent id, child id, weight)`.  A graph map has no parallel edges, so
well-formed native inputs have pairwise-distinct `(parent, child)`
pairs. -/
structure NThreaded where
  map : List NEnvelope
  edges : List (String × String × Nat)
deriving DecidableEq

/-- `ThreadedEnvelopes::try_from_backend` (config.rs lines 1354-1415).
Returns the rebuilt graph and translated map, or `none` for the
`.unwrap()` panic, together with the final mapper state (the persisted
store). -/
def ThreadedEnvelopes.try_from_backend (m : IdMapper) (t : NThreaded) :
    Option (List (TNode × TNode × Nat) × List (String × NEnvelope)) × IdMapper :=
  let re := translateEdges m t.edges
  let rm := translateMap re.2 t.map
  (match buildGraph rm.1 re.1 [] with
   | some g => some (g, rm.1)
   | none => none, rm.2)

/-! ### Account listing

From `src/himalaya/config.rs` (`From<Iter<'_, String,
HimalayaTomlAccountConfig>> for Accounts`, lines 1016-1043). -/

structure SendConfig where
  backend : Option SendingBackend
deriving DecidableEq

structure MessageConfig where
  send : Option SendConfig
deriving DecidableEq

/-- `HimalayaTomlAccountConfig`, restricted to the fields the account
listing reads. -/
structure TomlAccount where
  default : Option Bool
  backend : Option Backend
  message : Option MessageConfig
deriving DecidableEq

/-- `HimalayaTomlAccountConfig::message_send_backend` (config.rs lines
326-331). -/
def TomlAccount.message_send_backend (a : TomlAccount) :
    Option SendingBackend :=
  (a.message.bind (fun m => m.send)).bind (fun s => s.backend)

/-- The backends column of one row (config.rs lines 1020-1032). -/
def TomlAccount.backendsString (a : TomlAccount) : String :=
  let backends := ""
  let backends :=
    match a.backend with
    | some b => backends ++ b.toStr
    | none => backends
  match a.message_send_backend with
  | some sb => (if backends.isEmpty then backends else backends ++ ", ") ++ sb.toStr
  | none => backends

/-- A printable account row (config.rs, `Account`). -/
structure Account where
  name : String
  backend : String
  default : Bool
deriving DecidableEq

def Account.nameLe (a b : Account) : Prop := a.name ≤ b.name

instance : DecidableRel Account.nameLe :=
  fun a b => inferInstanceAs (Decidable (a.name ≤ b.name))

/-- The `From` impl (config.rs lines 1016-1043): map each `(name, config)`
entry to a row, then sort the rows by name.  Rust's `sort_by` is a stable
comparison sort; it is modelled by the stable `insertionSort`, which
agrees with it extensionally. -/
def accountsFrom (l : List (String × TomlAccount)) : List Account :=
  List.insertionSort Account.nameLe
    (l.map (fun p => Account.mk p.1 p.2.backendsString (p.2.default.getD false)))

def Account.nameLt (a b : Account) : Prop := a.name < b.name

instance : DecidableRel Account.nameLt :=
  fun a b => inferInstanceAs (Decidable (a.name < b.name))

instance : IsAntisymm Account Account.nameLt :=
  ⟨fun _ _ h1 h2 => False.elim (absurd (lt_trans h1 h2) (lt_irrefl _))⟩

instance : IsTotal Account Account.nameLe :=
  ⟨fun a b => le_total a.name b.name⟩

instance : IsTrans Account Account.nameLe :=
  ⟨fun _ _ _ h1 h2 => le_trans h1 h2⟩

/-- The backends column as the claim describes it: read-backend name and
send-backend name, comma-separated when both are present. -/
def specBackendsCol (a : TomlAccount) : String :=
  match a.backend, a.message_send_backend with
  | some b, some sb => b.toStr ++ ", " ++ sb.toStr
  | some b, none => b.toStr
  | none, some sb => sb.toStr
  | none, none => ""

/-- Concrete fetched envelopes for the reply-thread scenario of the
specification: A ← B ← C, plus an edge from the never-fetched Z to C. -/
def sampleEnvA : NEnvelope :=
  ⟨"A", "mA", "sA", none, "a@x", none, "t@x", [], "d", false⟩

def sampleEnvB : NEnvelope :=
  ⟨"B", "mB", "sB", none, "b@x", none, "t@x", [], "d", false⟩

def sampleEnvC : NEnvelope :=
  ⟨"C", "mC", "sC", none, "c@x", none, "t@x", [], "d", false⟩

def sampleThread : NThreaded :=
  ⟨[sampleEnvA, sampleEnvB, sampleEnvC],
   [("A", "B", 1), ("B", "C", 2), ("Z", "C", 2)]⟩

/-- One iteration of the graph-rebuilding loop, as a value: the node
triple an already-translated edge contributes, or `none` when the child
lookup panics. -/
def edgeTriple (tmap : List (String × NEnvelope)) (t : String × String × Nat) :
    Option (TNode × TNode × Nat) :=
  match lookupT tmap t.2.1 with
  | none => none
  | some eb =>
      match lookupT tmap t.1 with
      | some ea => some (ea.as_threaded, eb.as_threaded, t.2.2)
      | none => some (rootNode, eb.as_threaded, t.2.2)

/-- How a native edge is reflected in the rebuilt graph, relative to the
final mapper state `mf`: the weight is kept, the child node is the
translated envelope of the fetched child, and the parent is either the
translated envelope of the fetched parent or — exactly when the parent was
never fetched — the synthetic root. -/
def edgeRel (t : NThreaded) (mf : IdMapper) (e : String × String × Nat)
    (r : TNode × TNode × Nat) : Prop :=
  ∃ bAlias benv, mf.lookup e.2.1 = some bAlias ∧ benv ∈ t.map ∧
    benv.id = e.2.1 ∧
    r.2.1 = NEnvelope.as_threaded { benv with id := bAlias } ∧ r.2.2 = e.2.2 ∧
    ((∃ aAlias aenv, aenv ∈ t.map ∧ aenv.id = e.1 ∧
        mf.lookup e.1 = some aAlias ∧
        r.1 = NEnvelope.as_threaded { aenv with id := aAlias }) ∨
     (e.1 ∉ t.map.map NEnvelope.id ∧ r.1 = rootNode))

/-! ### Supporting lemmas and claim theorems -/

theorem digitChar_inj_lt (a b : Nat) (ha : a < 10) (hb : b < 10)
    (h : Nat.digitChar a = Nat.digitChar b) : a = b := by
  have key : ∀ x : Fin 10, ∀ y : Fin 10,
      Nat.digitChar x.val = Nat.digitChar y.val → x = y := by decide
  have := key ⟨a, ha⟩ ⟨b, hb⟩ h
  exact congrArg Fin.val this

theorem map_digitChar_inj (l1 l2 : List Nat)
    (h1 : ∀ x ∈ l1, x < 10) (h2 : ∀ x ∈ l2, x < 10)
    (h : l1.map Nat.digitChar = l2.map Nat.digitChar) : l1 = l2 := by
  induction l1 generalizing l2 with
  | nil => cases l2 with
    | nil => rfl
    | cons b bs => simp at h
  | cons a as ih =>
    cases l2 with
    | nil => simp at h
    | cons b bs =>
      simp only [List.map_cons, List.cons.injEq] at h
      have ha := h1 a (List.mem_cons_self a as)
      have hb := h2 b (List.mem_cons_self b bs)
      have hab := digitChar_inj_lt a b ha hb h.1
      have htl := ih bs (fun x hx => h1 x (List.mem_cons_of_mem a hx))
        (fun x hx => h2 x (List.mem_cons_of_mem b hx)) h.2
      rw [hab, htl]

theorem shortIdStr_pos_ne_zero_str (n : Nat) (hn : n ≠ 0) : shortIdStr n ≠ "0" := by
  intro h
  unfold shortIdStr at h
  rw [if_neg hn] at h
  have hdata : (((Nat.digits 10 n).map Nat.digitChar).reverse) = ['0'] := by
    have := congrArg String.data h
    simpa using this
  have hrev : (Nat.digits 10 n).map Nat.digitChar = ['0'] := by
    have := congrArg List.reverse hdata
    simpa using this
  have : Nat.digits 10 n = [0] := by
    apply map_digitChar_inj
    · intro x hx; exact Nat.digits_lt_base (by norm_num) hx
    · intro x hx; simp at hx; omega
    · simpa using hrev
  have h0 : Nat.ofDigits 10 (Nat.digits 10 n) = n := Nat.ofDigits_digits 10 n
  rw [this] at h0
  simp [Nat.ofDigits] at h0
  exact hn h0.symm

theorem shortIdStr_inj (m n : Nat) (h : shortIdStr m = shortIdStr n) : m = n := by
  by_cases hm : m = 0
  · by_cases hn : n = 0
    · rw [hm, hn]
    · exact absurd h.symm (by rw [hm]; exact shortIdStr_pos_ne_zero_str n hn)
  · by_cases hn : n = 0
    · exact absurd h (by rw [hn]; exact shortIdStr_pos_ne_zero_str m hm)
    · unfold shortIdStr at h
      rw [if_neg hm, if_neg hn] at h
      have hdata := congrArg String.data h
      simp only [String.mk] at hdata
      have hrev := congrArg List.reverse hdata
      simp only [List.reverse_reverse] at hrev
      have hdig : Nat.digits 10 m = Nat.digits 10 n := by
        apply map_digitChar_inj
        · intro x hx; exact Nat.digits_lt_base (by norm_num) hx
        · intro x hx; exact Nat.digits_lt_base (by norm_num) hx
        · exact hrev
      have h1 : Nat.ofDigits 10 (Nat.digits 10 m) = m := Nat.ofDigits_digits 10 m
      have h2 : Nat.ofDigits 10 (Nat.digits 10 n) = n := Nat.ofDigits_digits 10 n
      rw [hdig] at h1
      rw [h2] at h1
      exact h1.symm

theorem AliasStore.empty_WF : AliasStore.empty.WF := by
  refine ⟨?_, le_refl 1, by simp [AliasStore.empty]⟩
  simp [AliasStore.empty]

theorem AliasStore.WF.fst_lt {s : AliasStore} (h : s.WF) :
    ∀ p ∈ s.pairs, 1 ≤ p.1 ∧ p.1 < s.next := by
  intro p hp
  have : p.1 ∈ s.pairs.map Prod.fst := List.mem_map_of_mem Prod.fst hp
  rw [h.1] at this
  have := List.mem_range'_1.mp this
  omega

theorem AliasStore.WF.fst_nodup {s : AliasStore} (h : s.WF) :
    (s.pairs.map Prod.fst).Nodup := by
  rw [h.1]; exact List.nodup_range' 1 (s.next - 1)

theorem IdMapper.lookup_hit {m : IdMapper} {x a : String}
    (h : m.lookup x = some a) : m.get_or_create_alias x = (a, m) := by
  cases m with
  | Dummy =>
      simp only [IdMapper.lookup] at h
      simp only [IdMapper.get_or_create_alias]
      rw [Option.some.injEq] at h
      rw [h]
  | Mapper s =>
      simp only [IdMapper.lookup, Option.map_eq_some'] at h
      obtain ⟨p, hp, ha⟩ := h
      simp only [IdMapper.get_or_create_alias, AliasStore.get_or_create_alias, hp]
      rw [ha]

theorem IdMapper.lookup_after {m m' : IdMapper} {x a : String}
    (h : m.get_or_create_alias x = (a, m')) : m'.lookup x = some a := by
  cases m with
  | Dummy =>
      simp only [IdMapper.get_or_create_alias, Prod.mk.injEq] at h
      obtain ⟨h1, h2⟩ := h
      rw [← h2]
      simp only [IdMapper.lookup]
      rw [h1]
  | Mapper s =>
      simp only [IdMapper.get_or_create_alias] at h
      rcases hfind : s.pairs.find? (fun p => p.2 == x) with _ | p
      · simp only [AliasStore.get_or_create_alias, hfind, Prod.mk.injEq] at h
        obtain ⟨h1, h2⟩ := h
        rw [← h2]
        simp only [IdMapper.lookup, List.find?_append, hfind, Option.none_or]
        simp only [List.find?]
        rw [show ((s.next, x).2 == x) = true by simp]
        simp [← h1]
      · simp only [AliasStore.get_or_create_alias, hfind, Prod.mk.injEq] at h
        obtain ⟨h1, h2⟩ := h
        rw [← h2]
        simp only [IdMapper.lookup, hfind]
        simp [← h1]

theorem IdMapper.lookup_mono {m : IdMapper} {x a : String} (y : String)
    (h : m.lookup x = some a) :
    (m.get_or_create_alias y).2.lookup x = some a := by
  cases m with
  | Dummy => simpa [IdMapper.get_or_create_alias] using h
  | Mapper s =>
      simp only [IdMapper.get_or_create_alias]
      rcases hfind : s.pairs.find? (fun p => p.2 == y) with _ | p
      · simp only [AliasStore.get_or_create_alias, hfind]
        simp only [IdMapper.lookup, Option.map_eq_some'] at h
        obtain ⟨p, hp, ha⟩ := h
        simp only [IdMapper.lookup, List.find?_append, hp, Option.or_some,
          Option.map_some']
        rw [ha]
      · simp only [AliasStore.get_or_create_alias, hfind]
        exact h

theorem IdMapper.WF_preserved {m : IdMapper} (y : String) (h : m.WF) :
    (m.get_or_create_alias y).2.WF := by
  cases m with
  | Dummy => trivial
  | Mapper s =>
      simp only [IdMapper.get_or_create_alias]
      rcases hfind : s.pairs.find? (fun p => p.2 == y) with _ | p
      · simp only [AliasStore.get_or_create_alias, hfind]
        obtain ⟨h1, h2, h3⟩ := h
        refine ⟨?_, ?_, ?_⟩
        · simp only [List.map_append, h1, List.map_cons, List.map_nil]
          have hnext : s.next + 1 - 1 = (s.next - 1) + 1 := by omega
          rw [hnext, List.range'_concat]
          have hval : 1 + 1 * (s.next - 1) = s.next := by omega
          rw [hval]
        · show 1 ≤ s.next + 1
          omega
        · simp only [List.map_append, List.map_cons, List.map_nil]
          rw [List.nodup_append]
          refine ⟨h3, List.nodup_singleton y, ?_⟩
          intro z hz hz'
          simp only [List.mem_singleton] at hz'
          subst hz'
          rw [List.find?_eq_none] at hfind
          obtain ⟨p, hp, hpz⟩ := List.mem_map.mp hz
          exact hfind p hp (by simp [hpz])
      · simp only [AliasStore.get_or_create_alias, hfind]
        exact h

theorem IdMapper.lookup_inj {m : IdMapper} {x y a : String} (hWF : m.WF)
    (hx : m.lookup x = some a) (hy : m.lookup y = some a) : x = y := by
  cases m with
  | Dummy =>
      simp only [IdMapper.lookup, Option.some.injEq] at hx hy
      rw [hx, hy]
  | Mapper s =>
      simp only [IdMapper.lookup, Option.map_eq_some'] at hx hy
      obtain ⟨p, hp, hpa⟩ := hx
      obtain ⟨q, hq, hqa⟩ := hy
      have hnat : p.1 = q.1 := shortIdStr_inj p.1 q.1 (by rw [hpa, hqa])
      have hpm := List.mem_of_find?_eq_some hp
      have hqm := List.mem_of_find?_eq_some hq
      have hfst := hWF.fst_nodup
      have hpq : p = q := List.inj_on_of_nodup_map hfst hpm hqm hnat
      have hpx := List.find?_some hp
      have hqy := List.find?_some hq
      simp only [beq_iff_eq] at hpx hqy
      rw [← hpx, ← hqy, hpq]

/-- Lookup never assigns the synthetic root alias `"0"` in the persistent
variant (short ids are positive). -/

theorem IdMapper.lookup_mapper_ne_root {s : AliasStore} {x a : String}
    (hWF : (IdMapper.Mapper s).WF) (h : (IdMapper.Mapper s).lookup x = some a) :
    a ≠ "0" := by
  simp only [IdMapper.lookup, Option.map_eq_some'] at h
  obtain ⟨p, hp, hpa⟩ := h
  have hmem := List.mem_of_find?_eq_some hp
  have hbounds := AliasStore.WF.fst_lt hWF p hmem
  rw [← hpa]
  exact shortIdStr_pos_ne_zero_str p.1 (by omega)

theorem AliasStore.lookupN_hit {s : AliasStore} {x : String} {n : Nat}
    (h : s.lookupN x = some n) : s.get_or_create_alias x = (n, s) := by
  simp only [AliasStore.lookupN, Option.map_eq_some'] at h
  obtain ⟨p, hp, hn⟩ := h
  simp only [AliasStore.get_or_create_alias, hp, hn]

theorem AliasStore.lookupN_fresh {s : AliasStore} {x : String}
    (h : s.lookupN x = none) :
    s.get_or_create_alias x = (s.next, ⟨s.pairs ++ [(s.next, x)], s.next + 1⟩) := by
  simp only [AliasStore.lookupN, Option.map_eq_none'] at h
  simp only [AliasStore.get_or_create_alias, h]

theorem AliasStore.lookupN_after {s s' : AliasStore} {x : String} {n : Nat}
    (h : s.get_or_create_alias x = (n, s')) : s'.lookupN x = some n := by
  rcases hfind : s.pairs.find? (fun p => p.2 == x) with _ | p
  · simp only [AliasStore.get_or_create_alias, hfind, Prod.mk.injEq] at h
    obtain ⟨h1, h2⟩ := h
    rw [← h2]
    simp only [AliasStore.lookupN, List.find?_append, hfind, Option.none_or]
    simp only [List.find?]
    rw [show ((s.next, x).2 == x) = true by simp]
    simp [h1]
  · simp only [AliasStore.get_or_create_alias, hfind, Prod.mk.injEq] at h
    obtain ⟨h1, h2⟩ := h
    rw [← h2]
    simp only [AliasStore.lookupN, hfind, Option.map_some']
    rw [h1]

theorem AliasStore.lookupN_mono {s : AliasStore} {x : String} {n : Nat}
    (y : String) (h : s.lookupN x = some n) :
    ((s.get_or_create_alias y).2).lookupN x = some n := by
  rcases hfind : s.pairs.find? (fun p => p.2 == y) with _ | p
  · simp only [AliasStore.get_or_create_alias, hfind]
    simp only [AliasStore.lookupN, Option.map_eq_some'] at h
    obtain ⟨p, hp, hn⟩ := h
    simp only [AliasStore.lookupN, List.find?_append, hp, Option.or_some,
      Option.map_some']
    rw [hn]
  · simp only [AliasStore.get_or_create_alias, hfind]
    exact h

theorem find?_fst_of_nodup {α : Type} [DecidableEq α] {l : List ((Nat × α))}
    {p : Nat × α} (hnd : (l.map Prod.fst).Nodup) (hp : p ∈ l) :
    l.find? (fun q => q.1 == p.1) = some p := by
  induction l with
  | nil => cases hp
  | cons h t ih =>
    simp only [List.map_cons, List.nodup_cons] at hnd
    rcases List.mem_cons.mp hp with rfl | hpt
    · simp [List.find?]
    · have hne : h.1 ≠ p.1 := by
        intro he
        exact hnd.1 (he ▸ List.mem_map_of_mem Prod.fst hpt)
      simp only [List.find?]
      rw [show (h.1 == p.1) = false by simpa using hne]
      exact ih hnd.2 hpt

/-- C5: within one scope, `get_or_create_alias` is idempotent (also across
interleaved calls for other ids), a fresh allocation yields the smallest
unused positive integer, the counter grows monotonically starting at 1,
and existing records are never mutated, so gaps are never reused. -/
theorem c5_alias_idempotent_smallest (s : AliasStore) (x : String)
    (hWF : s.WF) :
    ((s.get_or_create_alias x).2.get_or_create_alias x =
      ((s.get_or_create_alias x).1, (s.get_or_create_alias x).2)) ∧
    (∀ y : String,
      ((((s.get_or_create_alias x).2.get_or_create_alias y).2).get_or_create_alias x).1 =
        (s.get_or_create_alias x).1) ∧
    (s.lookupN x = none →
      1 ≤ (s.get_or_create_alias x).1 ∧
      (s.get_or_create_alias x).1 ∉ s.pairs.map Prod.fst ∧
      (∀ k, 1 ≤ k → k < (s.get_or_create_alias x).1 → k ∈ s.pairs.map Prod.fst) ∧
      (s.get_or_create_alias x).1 = s.next ∧
      (s.get_or_create_alias x).2.next = s.next + 1 ∧
      (s.get_or_create_alias x).2.pairs = s.pairs ++ [(s.next, x)]) ∧
    ((AliasStore.empty.get_or_create_alias x).1 = 1) := by
  obtain ⟨hr, hnext, hsnd⟩ := hWF
  refine ⟨?_, ?_, ?_, by simp [AliasStore.empty, AliasStore.get_or_create_alias]⟩
  · rcases hl : s.lookupN x with _ | n
    · have := AliasStore.lookupN_fresh hl
      rw [this]
      have hafter : (⟨s.pairs ++ [(s.next, x)], s.next + 1⟩ : AliasStore).lookupN x
          = some s.next := AliasStore.lookupN_after this
      have := AliasStore.lookupN_hit hafter
      rw [this]
    · have := AliasStore.lookupN_hit hl
      rw [this]
      exact AliasStore.lookupN_hit hl
  · intro y
    have hafter : (s.get_or_create_alias x).2.lookupN x =
        some (s.get_or_create_alias x).1 := AliasStore.lookupN_after rfl
    have hmono := AliasStore.lookupN_mono y hafter
    have := AliasStore.lookupN_hit hmono
    rw [this]
  · intro hl
    have hfresh := AliasStore.lookupN_fresh hl
    rw [hfresh]
    simp only
    have hmem : ∀ k, k ∈ s.pairs.map Prod.fst ↔ (1 ≤ k ∧ k < s.next) := by
      intro k
      rw [hr, List.mem_range'_1]
      omega
    refine ⟨by omega, ?_, ?_, by simp, by simp, by simp⟩
    · rw [hmem]; omega
    · intro k h1 h2
      rw [hmem]; omega

/-- C6: resolving an alias back yields the original native id, for both
mapper variants: the persistent store satisfies
`get_id (get_or_create_alias x) = x`, and the pass-through variant is the
identity on the short id's textual form, so its round trip is trivial. -/
theorem c6_roundtrip :
    (∀ (s : AliasStore) (x : String), s.WF →
      (s.get_or_create_alias x).2.get_id (s.get_or_create_alias x).1 = .ok x) ∧
    (∀ n : Nat,
      IdMapper.Dummy.get_or_create_alias (shortIdStr n) = (shortIdStr n, .Dummy) ∧
      IdMapper.Dummy.get_id n = .ok (shortIdStr n)) := by
  constructor
  · intro s x hWF
    rcases hl : s.lookupN x with _ | n
    · have hfresh := AliasStore.lookupN_fresh hl
      rw [hfresh]
      simp only [AliasStore.get_id]
      have hnone : s.pairs.find? (fun q => q.1 == s.next) = none := by
        rw [List.find?_eq_none]
        intro q hq
        have := hWF.fst_lt q hq
        simpa using (by omega : ¬q.1 = s.next)
      rw [List.find?_append, hnone]
      simp [List.find?]
    · have hhit := AliasStore.lookupN_hit hl
      rw [hhit]
      simp only [AliasStore.lookupN, Option.map_eq_some'] at hl
      obtain ⟨p, hp, hn⟩ := hl
      have hmem := List.mem_of_find?_eq_some hp
      have hfind := find?_fst_of_nodup hWF.fst_nodup hmem
      have hx := List.find?_some hp
      simp only [beq_iff_eq] at hx
      simp only [AliasStore.get_id]
      rw [← hn, hfind]
      simp [hx]
  · intro n
    exact ⟨rfl, rfl⟩

/-- Witness for C6 at a concrete store and id. -/
theorem c6_roundtrip_witness :
    AliasStore.empty.WF ∧
    (AliasStore.empty.get_or_create_alias "msg-1").2.get_id
      (AliasStore.empty.get_or_create_alias "msg-1").1 = .ok "msg-1" :=
  ⟨AliasStore.empty_WF, c6_roundtrip.1 AliasStore.empty "msg-1" AliasStore.empty_WF⟩

/-- Witness for C5 at a concrete store and id. -/
theorem c5_alias_witness :
    AliasStore.empty.WF ∧
    (AliasStore.empty.get_or_create_alias "a").2.get_or_create_alias "a" =
      ((AliasStore.empty.get_or_create_alias "a").1,
       (AliasStore.empty.get_or_create_alias "a").2) :=
  ⟨AliasStore.empty_WF, (c5_alias_idempotent_smallest AliasStore.empty "a" AliasStore.empty_WF).1⟩

/-- C7: the pass-through mapper is selected exactly when the active
backend is not a persistence-backed maildir or notmuch variant, and it
implements every operation as the identity on the native id's textual
form, never failing with an unknown-alias error and never touching a
store. -/
theorem c7_dummy_identity (feat : Features) (backend : Option Backend)
    (loaded : AliasStore) :
    (build_id_mapper feat backend loaded = .Dummy ↔
      ¬((feat.maildir ∧ feat.sled ∧ backend = some .Maildir) ∨
        (feat.notmuch ∧ feat.sled ∧ backend = some .Notmuch))) ∧
    (∀ s : String, IdMapper.Dummy.get_or_create_alias s = (s, .Dummy) ∧
      IdMapper.Dummy.create_alias s = (s, .Dummy)) ∧
    (∀ n : Nat, IdMapper.Dummy.get_id n = .ok (shortIdStr n)) ∧
    (∀ ns : List Nat, IdMapper.Dummy.get_ids ns = .ok (ns.map shortIdStr)) := by
  refine ⟨?_, fun s => ⟨rfl, rfl⟩, fun n => rfl, ?_⟩
  · unfold build_id_mapper
    split_ifs with h1 h2
    · simp only [iff_iff_implies_and_implies]
      constructor
      · intro h; cases h
      · intro h; exact absurd (Or.inl h1) h
    · simp only [iff_iff_implies_and_implies]
      constructor
      · intro h; cases h
      · intro h; exact absurd (Or.inr h2) h
    · constructor
      · intro _; exact not_or.mpr ⟨h1, h2⟩
      · intro _; rfl
  · intro ns
    induction ns with
    | nil => rfl
    | cons a t ih =>
        simp only [IdMapper.get_ids, IdMapper.get_id, ih, List.map_cons]

/-- C3: with the maildir read selection and the sendmail sending
selection, every read operation resolves to the maildir session and
`send_message` to the sendmail session; and whenever the relevant
selection is absent or `None`, names a variant that is not compiled in,
or the matching initializer is unpopulated, the dispatcher resolves to
unsupported — never to another variant. -/
theorem c3_dispatch_exclusivity :
    (∀ feat : Features, feat.maildir = true → feat.sendmail = true →
      (ContextBuilder.new feat (some .Maildir) (some .Sendmail)).list_folders = some .maildir ∧
      (ContextBuilder.new feat (some .Maildir) (some .Sendmail)).list_envelopes = some .maildir ∧
      (ContextBuilder.new feat (some .Maildir) (some .Sendmail)).get_messages = some .maildir ∧
      (ContextBuilder.new feat (some .Maildir) (some .Sendmail)).add_message = some .maildir ∧
      (ContextBuilder.new feat (some .Maildir) (some .Sendmail)).copy_messages = some .maildir ∧
      (ContextBuilder.new feat (some .Maildir) (some .Sendmail)).move_messages = some .maildir ∧
      (ContextBuilder.new feat (some .Maildir) (some .Sendmail)).delete_messages = some .maildir ∧
      (ContextBuilder.new feat (some .Maildir) (some .Sendmail)).send_message = some .sendmail) ∧
    (∀ cb : ContextBuilder,
      ((cb.backend = none ∨ cb.backend = some .None ∨
        (cb.backend = some .Imap ∧ (cb.feat.imap = false ∨ cb.imap = none)) ∨
        (cb.backend = some .Maildir ∧ (cb.feat.maildir = false ∨ cb.maildir = none)) ∨
        (cb.backend = some .Notmuch ∧ (cb.feat.notmuch = false ∨ cb.notmuch = none))) →
        cb.list_folders = none ∧ cb.list_envelopes = none ∧ cb.get_messages = none ∧
        cb.add_message = none ∧ cb.copy_messages = none ∧ cb.move_messages = none ∧
        cb.delete_messages = none) ∧
      ((cb.sending_backend = none ∨ cb.sending_backend = some .None ∨
        (cb.sending_backend = some .Smtp ∧ (cb.feat.smtp = false ∨ cb.smtp = none)) ∨
        (cb.sending_backend = some .Sendmail ∧ (cb.feat.sendmail = false ∨ cb.sendmail = none))) →
        cb.send_message = none)) := by
  constructor
  · intro feat hm hs
    refine ⟨?_, ?_, ?_, ?_, ?_, ?_, ?_, ?_⟩ <;>
      simp [ContextBuilder.new, ContextBuilder.list_folders,
        ContextBuilder.list_envelopes, ContextBuilder.get_messages,
        ContextBuilder.add_message, ContextBuilder.copy_messages,
        ContextBuilder.move_messages, ContextBuilder.delete_messages,
        ContextBuilder.send_message, hm, hs]
  · intro cb
    constructor
    · intro h
      rcases h with h | h | ⟨h, h2 | h2⟩ | ⟨h, h2 | h2⟩ | ⟨h, h2 | h2⟩ <;>
        refine ⟨?_, ?_, ?_, ?_, ?_, ?_, ?_⟩ <;>
        simp_all [ContextBuilder.list_folders, ContextBuilder.list_envelopes,
          ContextBuilder.get_messages, ContextBuilder.add_message,
          ContextBuilder.copy_messages, ContextBuilder.move_messages,
          ContextBuilder.delete_messages]
    · intro h
      rcases h with h | h | ⟨h, h2 | h2⟩ | ⟨h, h2 | h2⟩ <;>
        simp_all [ContextBuilder.send_message]

/-- Witness for C3 at a concrete fully-featured builder. -/
theorem c3_dispatch_witness :
    (ContextBuilder.new ⟨true, true, true, true, true, true⟩ (some .Maildir)
      (some .Sendmail)).list_folders = some .maildir ∧
    (ContextBuilder.new ⟨true, true, true, true, true, true⟩ (some .Maildir)
      (some .Sendmail)).send_message = some .sendmail ∧
    (ContextBuilder.new ⟨true, true, true, true, true, true⟩ none none).send_message = none := by
  refine ⟨(c3_dispatch_exclusivity.1 ⟨true, true, true, true, true, true⟩ rfl rfl).1,
    (c3_dispatch_exclusivity.1 ⟨true, true, true, true, true, true⟩ rfl rfl).2.2.2.2.2.2.2,
    (c3_dispatch_exclusivity.2
      (ContextBuilder.new ⟨true, true, true, true, true, true⟩ none none)).2 (Or.inl rfl)⟩

theorem buildStep_ok {sel : Option Unit} {out : Except String Unit}
    {r : Option Unit} (h : buildStep sel out = .ok r) :
    (r.isSome ↔ sel.isSome) ∧ (sel.isSome → out = .ok ()) := by
  cases sel <;> cases out <;> simp_all [buildStep]

theorem buildStep_error {sel : Option Unit} {out : Except String Unit}
    {e : String} (h : buildStep sel out = .error e) :
    sel.isSome = true ∧ out = .error e := by
  cases sel <;> cases out <;> simp_all [buildStep]

theorem buildStep_total {sel : Option Unit} {out : Except String Unit}
    (h : sel.isSome → out = .ok ()) :
    ∃ r : Option Unit, buildStep sel out = .ok r := by
  cases sel with
  | none => exact ⟨none, rfl⟩
  | some u => exact ⟨some (), by simp [buildStep, h (by simp)]⟩

/-- C4: `build` instantiates a session exactly for each populated
initializer, succeeds exactly when every selected variant initializes, and
on failure returns one of the selected variants' errors — never a partial
context. -/
theorem c4_build_all_or_nothing (cb : ContextBuilder) (o : BuildOutcomes) :
    (∀ ctx : Context, cb.build o = .ok ctx →
      ((ctx.imap.isSome ↔ cb.imap.isSome) ∧ (ctx.maildir.isSome ↔ cb.maildir.isSome) ∧
       (ctx.notmuch.isSome ↔ cb.notmuch.isSome) ∧ (ctx.smtp.isSome ↔ cb.smtp.isSome) ∧
       (ctx.sendmail.isSome ↔ cb.sendmail.isSome))) ∧
    ((∃ ctx, cb.build o = .ok ctx) ↔
      ((cb.imap.isSome → o.imap = .ok ()) ∧ (cb.maildir.isSome → o.maildir = .ok ()) ∧
       (cb.notmuch.isSome → o.notmuch = .ok ()) ∧ (cb.smtp.isSome → o.smtp = .ok ()) ∧
       (cb.sendmail.isSome → o.sendmail = .ok ()))) ∧
    (∀ e, cb.build o = .error e →
      ((cb.imap.isSome ∧ o.imap = .error e) ∨ (cb.maildir.isSome ∧ o.maildir = .error e) ∨
       (cb.notmuch.isSome ∧ o.notmuch = .error e) ∨ (cb.smtp.isSome ∧ o.smtp = .error e) ∨
       (cb.sendmail.isSome ∧ o.sendmail = .error e))) := by
  rcases h1 : buildStep cb.imap o.imap with e1 | r1
  case error =>
    have hb : cb.build o = .error e1 := by simp [ContextBuilder.build, h1]
    obtain ⟨hs, ho⟩ := buildStep_error h1
    refine ⟨fun ctx hctx => by simp [hb] at hctx, ?_, ?_⟩
    · rw [hb]
      constructor
      · rintro ⟨ctx, hctx⟩; cases hctx
      · rintro ⟨hi, _⟩
        rw [hi hs] at ho; cases ho
    · intro e he
      rw [hb] at he
      rw [Except.error.injEq] at he
      exact Or.inl ⟨by simpa using hs, by rw [← he]; exact ho⟩
  case ok =>
  rcases h2 : buildStep cb.maildir o.maildir with e2 | r2
  case error =>
    have hb : cb.build o = .error e2 := by simp [ContextBuilder.build, h1, h2]
    obtain ⟨hs, ho⟩ := buildStep_error h2
    refine ⟨fun ctx hctx => by simp [hb] at hctx, ?_, ?_⟩
    · rw [hb]
      constructor
      · rintro ⟨ctx, hctx⟩; cases hctx
      · rintro ⟨_, hi, _⟩
        rw [hi hs] at ho; cases ho
    · intro e he
      rw [hb] at he
      rw [Except.error.injEq] at he
      exact Or.inr (Or.inl ⟨by simpa using hs, by rw [← he]; exact ho⟩)
  case ok =>
  rcases h3 : buildStep cb.notmuch o.notmuch with e3 | r3
  case error =>
    have hb : cb.build o = .error e3 := by simp [ContextBuilder.build, h1, h2, h3]
    obtain ⟨hs, ho⟩ := buildStep_error h3
    refine ⟨fun ctx hctx => by simp [hb] at hctx, ?_, ?_⟩
    · rw [hb]
      constructor
      · rintro ⟨ctx, hctx⟩; cases hctx
      · rintro ⟨_, _, hi, _⟩
        rw [hi hs] at ho; cases ho
    · intro e he
      rw [hb] at he
      rw [Except.error.injEq] at he
      exact Or.inr (Or.inr (Or.inl ⟨by simpa using hs, by rw [← he]; exact ho⟩))
  case ok =>
  rcases h4 : buildStep cb.smtp o.smtp with e4 | r4
  case error =>
    have hb : cb.build o = .error e4 := by simp [ContextBuilder.build, h1, h2, h3, h4]
    obtain ⟨hs, ho⟩ := buildStep_error h4
    refine ⟨fun ctx hctx => by simp [hb] at hctx, ?_, ?_⟩
    · rw [hb]
      constructor
      · rintro ⟨ctx, hctx⟩; cases hctx
      · rintro ⟨_, _, _, hi, _⟩
        rw [hi hs] at ho; cases ho
    · intro e he
      rw [hb] at he
      rw [Except.error.injEq] at he
      exact Or.inr (Or.inr (Or.inr (Or.inl ⟨by simpa using hs, by rw [← he]; exact ho⟩)))
  case ok =>
  rcases h5 : buildStep cb.sendmail o.sendmail with e5 | r5
  case error =>
    have hb : cb.build o = .error e5 := by simp [ContextBuilder.build, h1, h2, h3, h4, h5]
    obtain ⟨hs, ho⟩ := buildStep_error h5
    refine ⟨fun ctx hctx => by simp [hb] at hctx, ?_, ?_⟩
    · rw [hb]
      constructor
      · rintro ⟨ctx, hctx⟩; cases hctx
      · rintro ⟨_, _, _, _, hi⟩
        rw [hi hs] at ho; cases ho
    · intro e he
      rw [hb] at he
      rw [Except.error.injEq] at he
      exact Or.inr (Or.inr (Or.inr (Or.inr ⟨by simpa using hs, by rw [← he]; exact ho⟩)))
  case ok =>
    have hb : cb.build o = .ok ⟨r1, r2, r3, r4, r5⟩ := by
      simp [ContextBuilder.build, h1, h2, h3, h4, h5]
    refine ⟨?_, ?_, ?_⟩
    · intro ctx hctx
      rw [hb] at hctx
      rw [Except.ok.injEq] at hctx
      rw [← hctx]
      exact ⟨(buildStep_ok h1).1, (buildStep_ok h2).1, (buildStep_ok h3).1,
        (buildStep_ok h4).1, (buildStep_ok h5).1⟩
    · constructor
      · intro _
        exact ⟨(buildStep_ok h1).2, (buildStep_ok h2).2, (buildStep_ok h3).2,
          (buildStep_ok h4).2, (buildStep_ok h5).2⟩
      · intro _
        exact ⟨_, hb⟩
    · intro e he
      rw [hb] at he
      cases he

/-- Witness for C4 at a concrete builder and outcome set. -/
theorem c4_build_witness :
    (ContextBuilder.new ⟨true, true, true, true, true, true⟩ (some .Maildir)
        (some .Sendmail)).build ⟨.ok (), .ok (), .ok (), .ok (), .ok ()⟩ =
      .ok ⟨none, some (), none, none, some ()⟩ ∧
    ((⟨none, some (), none, none, some ()⟩ : Context).maildir.isSome ↔
      (ContextBuilder.new ⟨true, true, true, true, true, true⟩ (some .Maildir)
        (some .Sendmail)).maildir.isSome) :=
  ⟨rfl,
    ((c4_build_all_or_nothing
        (ContextBuilder.new ⟨true, true, true, true, true, true⟩ (some .Maildir)
          (some .Sendmail)) ⟨.ok (), .ok (), .ok (), .ok (), .ok ()⟩).1
      ⟨none, some (), none, none, some ()⟩ rfl).2.1⟩

theorem flat_lookup_mono (envs : List NEnvelope) {m : IdMapper} {x a : String}
    (h : m.lookup x = some a) :
    (Envelopes.try_from_backend m envs).2.lookup x = some a := by
  induction envs generalizing m with
  | nil => simpa [Envelopes.try_from_backend] using h
  | cons e rest ih =>
      simp only [Envelopes.try_from_backend]
      exact ih (IdMapper.lookup_mono e.id h)

/-- C8: the flat translator emits exactly one envelope per native
envelope, in the backend's order, with the resolved-or-created alias as id
and every other field copied verbatim. -/
theorem c8_flat_translation (m : IdMapper) (envs : List NEnvelope) :
    List.Forall₂ (fun (e : NEnvelope) (o : REnvelope) =>
      (Envelopes.try_from_backend m envs).2.lookup e.id = some o.id ∧
      o.flags = e.flags ∧ o.subject = e.subject ∧
      o.from_ = ⟨e.from_name, e.from_addr⟩ ∧ o.to_ = ⟨e.to_name, e.to_addr⟩ ∧
      o.date = e.date ∧ o.has_attachment = e.has_attachment)
      envs (Envelopes.try_from_backend m envs).1 := by
  induction envs generalizing m with
  | nil => exact List.Forall₂.nil
  | cons e rest ih =>
      simp only [Envelopes.try_from_backend]
      refine List.Forall₂.cons ⟨?_, rfl, rfl, rfl, rfl, rfl, rfl⟩ (ih _)
      exact flat_lookup_mono rest (IdMapper.lookup_after rfl)

theorem backendsString_eq_spec (a : TomlAccount) :
    a.backendsString = specBackendsCol a := by
  rcases a with ⟨d, b, msg⟩
  rcases hs : TomlAccount.message_send_backend ⟨d, b, msg⟩ with _ | sb
  · rcases b with _ | bb
    · simp [TomlAccount.backendsString, specBackendsCol, hs]
    · cases bb <;>
        simp only [TomlAccount.backendsString, specBackendsCol, hs] <;> decide
  · rcases b with _ | bb
    · cases sb <;>
        simp only [TomlAccount.backendsString, specBackendsCol, hs] <;> decide
    · cases bb <;> cases sb <;>
        simp only [TomlAccount.backendsString, specBackendsCol, hs] <;> decide

theorem sorted_lt_of_sorted_le_nodup {lst : List Account}
    (hs : List.Sorted Account.nameLe lst)
    (hn : (lst.map Account.name).Nodup) :
    List.Sorted Account.nameLt lst := by
  have hne : lst.Pairwise (fun a b => a.name ≠ b.name) := List.pairwise_map.mp hn
  exact (hs.and hne).imp (fun h => lt_of_le_of_ne h.1 h.2)

/-- C10: the account listing is sorted by account name independently of
the map's iteration order, and each row's backends column is the
concatenation of the read- and send-backend names, comma-separated when
both are present. -/
theorem c10_accounts_sorted (l : List (String × TomlAccount))
    (hnd : (l.map Prod.fst).Nodup) :
    List.Sorted Account.nameLe (accountsFrom l) ∧
    (∀ l', l.Perm l' → accountsFrom l' = accountsFrom l) ∧
    (∀ p ∈ l, Account.mk p.1 (specBackendsCol p.2) (p.2.default.getD false) ∈
      accountsFrom l) := by
  have hmapname : ∀ (l₀ : List (String × TomlAccount)),
      (l₀.map (fun p => Account.mk p.1 p.2.backendsString (p.2.default.getD false))).map
        Account.name = l₀.map Prod.fst := by
    intro l₀
    rw [List.map_map]
    rfl
  have hsorted : ∀ (l₀ : List (String × TomlAccount)),
      List.Sorted Account.nameLe (accountsFrom l₀) := by
    intro l₀
    exact List.sorted_insertionSort Account.nameLe _
  have hperm : ∀ (l₀ : List (String × TomlAccount)),
      (accountsFrom l₀).Perm
        (l₀.map (fun p => Account.mk p.1 p.2.backendsString (p.2.default.getD false))) := by
    intro l₀
    exact List.perm_insertionSort Account.nameLe _
  have hnames : ∀ (l₀ : List (String × TomlAccount)),
      (l₀.map Prod.fst).Nodup → ((accountsFrom l₀).map Account.name).Nodup := by
    intro l₀ h₀
    have hp := (hperm l₀).map Account.name
    rw [hmapname l₀] at hp
    exact hp.nodup_iff.mpr h₀
  refine ⟨hsorted l, ?_, ?_⟩
  · intro l' hpl
    have hnd' : (l'.map Prod.fst).Nodup := (hpl.map Prod.fst).nodup_iff.mp hnd
    have hlt : List.Sorted Account.nameLt (accountsFrom l) :=
      sorted_lt_of_sorted_le_nodup (hsorted l) (hnames l hnd)
    have hlt' : List.Sorted Account.nameLt (accountsFrom l') :=
      sorted_lt_of_sorted_le_nodup (hsorted l') (hnames l' hnd')
    have hchain : (accountsFrom l').Perm (accountsFrom l) :=
      ((hperm l').trans ((hpl.map _).symm)).trans (hperm l).symm
    exact List.eq_of_perm_of_sorted hchain hlt' hlt
  · intro p hp
    have hmem : Account.mk p.1 p.2.backendsString (p.2.default.getD false) ∈
        l.map (fun p => Account.mk p.1 p.2.backendsString (p.2.default.getD false)) :=
      List.mem_map_of_mem _ hp
    rw [backendsString_eq_spec p.2] at hmem
    exact (hperm l).mem_iff.mpr hmem

/-- Witness for C10 at a concrete two-account map given in reverse name
order. -/
theorem c10_accounts_witness :
    (([("b", ⟨some true, some .Maildir, some ⟨some ⟨some .Sendmail⟩⟩⟩),
       ("a", ⟨none, none, some ⟨some ⟨some .Smtp⟩⟩⟩)] :
        List (String × TomlAccount)).map Prod.fst).Nodup ∧
    List.Sorted Account.nameLe
      (accountsFrom [("b", ⟨some true, some .Maildir, some ⟨some ⟨some .Sendmail⟩⟩⟩),
        ("a", ⟨none, none, some ⟨some ⟨some .Smtp⟩⟩⟩)]) :=
  ⟨by decide,
    (c10_accounts_sorted
      [("b", ⟨some true, some .Maildir, some ⟨some ⟨some .Sendmail⟩⟩⟩),
       ("a", ⟨none, none, some ⟨some ⟨some .Smtp⟩⟩⟩)] (by decide)).1⟩

theorem forall₂_mem_left {α β : Type} {R : α → β → Prop} {l1 : List α}
    {l2 : List β} (h : List.Forall₂ R l1 l2) {x : α} (hx : x ∈ l1) :
    ∃ y ∈ l2, R x y := by
  induction h with
  | nil => cases hx
  | cons hr _ ih =>
      rcases List.mem_cons.mp hx with rfl | hx'
      · exact ⟨_, List.mem_cons_self _ _, hr⟩
      · obtain ⟨y, hy, hxy⟩ := ih hx'
        exact ⟨y, List.mem_cons_of_mem _ hy, hxy⟩

theorem forall₂_mem_right {α β : Type} {R : α → β → Prop} {l1 : List α}
    {l2 : List β} (h : List.Forall₂ R l1 l2) {y : β} (hy : y ∈ l2) :
    ∃ x ∈ l1, R x y := by
  induction h with
  | nil => cases hy
  | cons hr _ ih =>
      rcases List.mem_cons.mp hy with rfl | hy'
      · exact ⟨_, List.mem_cons_self _ _, hr⟩
      · obtain ⟨x, hx, hxy⟩ := ih hy'
        exact ⟨x, List.mem_cons_of_mem _ hx, hxy⟩

theorem forall₂_pairwise_transfer {α β : Type} {R : α → β → Prop}
    {S : α → α → Prop} {T : β → β → Prop} {l1 : List α} {l2 : List β}
    (h : List.Forall₂ R l1 l2) (hp : l1.Pairwise S)
    (himp : ∀ x1 ∈ l1, ∀ x2 ∈ l1, ∀ y1 y2, R x1 y1 → R x2 y2 → S x1 x2 → T y1 y2) :
    l2.Pairwise T := by
  induction h with
  | nil => exact List.Pairwise.nil
  | cons hr hrest ih =>
      rename_i a b as bs
      rcases List.pairwise_cons.mp hp with ⟨hhead, htail⟩
      refine List.pairwise_cons.mpr ⟨?_, ?_⟩
      · intro y2 hy2
        obtain ⟨x2, hx2, hxy2⟩ := forall₂_mem_right hrest hy2
        exact himp a (List.mem_cons_self _ _) x2 (List.mem_cons_of_mem _ hx2)
          b y2 hr hxy2 (hhead x2 hx2)
      · exact ih htail (fun x1 hx1 x2 hx2 y1 y2 h1 h2 hs =>
          himp x1 (List.mem_cons_of_mem _ hx1) x2 (List.mem_cons_of_mem _ hx2)
            y1 y2 h1 h2 hs)

theorem translateEdges_mono (es : List (String × String × Nat)) {m : IdMapper}
    {x a : String} (h : m.lookup x = some a) :
    (translateEdges m es).2.lookup x = some a := by
  induction es generalizing m with
  | nil => simpa [translateEdges] using h
  | cons e rest ih =>
      obtain ⟨p, c, w⟩ := e
      simp only [translateEdges]
      exact ih (IdMapper.lookup_mono c (IdMapper.lookup_mono p h))

theorem translateMap_mono (envs : List NEnvelope) {m : IdMapper}
    {x a : String} (h : m.lookup x = some a) :
    (translateMap m envs).2.lookup x = some a := by
  induction envs generalizing m with
  | nil => simpa [translateMap] using h
  | cons e rest ih =>
      simp only [translateMap]
      exact ih (IdMapper.lookup_mono e.id h)

theorem translateEdges_WF (es : List (String × String × Nat)) {m : IdMapper}
    (h : m.WF) : (translateEdges m es).2.WF := by
  induction es generalizing m with
  | nil => simpa [translateEdges] using h
  | cons e rest ih =>
      obtain ⟨p, c, w⟩ := e
      simp only [translateEdges]
      exact ih (IdMapper.WF_preserved c (IdMapper.WF_preserved p h))

theorem translateMap_WF (envs : List NEnvelope) {m : IdMapper}
    (h : m.WF) : (translateMap m envs).2.WF := by
  induction envs generalizing m with
  | nil => simpa [translateMap] using h
  | cons e rest ih =>
      simp only [translateMap]
      exact ih (IdMapper.WF_preserved e.id h)

theorem translateEdges_forall₂ (m : IdMapper) (es : List (String × String × Nat)) :
    List.Forall₂ (fun (e t' : String × String × Nat) =>
      (translateEdges m es).2.lookup e.1 = some t'.1 ∧
      (translateEdges m es).2.lookup e.2.1 = some t'.2.1 ∧
      t'.2.2 = e.2.2) es (translateEdges m es).1 := by
  induction es generalizing m with
  | nil => exact List.Forall₂.nil
  | cons e rest ih =>
      obtain ⟨p, c, w⟩ := e
      simp only [translateEdges]
      refine List.Forall₂.cons ⟨?_, ?_, rfl⟩ (ih _)
      · exact translateEdges_mono rest
          (IdMapper.lookup_mono c (IdMapper.lookup_after rfl))
      · exact translateEdges_mono rest (IdMapper.lookup_after rfl)

theorem translateMap_forall₂ (m : IdMapper) (envs : List NEnvelope) :
    List.Forall₂ (fun (e : NEnvelope) (q : String × NEnvelope) =>
      (translateMap m envs).2.lookup e.id = some q.1 ∧
      q.2 = { e with id := q.1 }) envs (translateMap m envs).1 := by
  induction envs generalizing m with
  | nil => exact List.Forall₂.nil
  | cons e rest ih =>
      simp only [translateMap]
      refine List.Forall₂.cons ⟨?_, rfl⟩ (ih _)
      exact translateMap_mono rest (IdMapper.lookup_after rfl)

theorem find?_key_of_nodup {α β : Type} [DecidableEq α] {l : List (α × β)}
    {p : α × β} (hnd : (l.map Prod.fst).Nodup) (hp : p ∈ l) :
    l.find? (fun q => q.1 == p.1) = some p := by
  induction l with
  | nil => cases hp
  | cons h t ih =>
    simp only [List.map_cons, List.nodup_cons] at hnd
    rcases List.mem_cons.mp hp with rfl | hpt
    · simp [List.find?]
    · have hne : h.1 ≠ p.1 := by
        intro he
        exact hnd.1 (he ▸ List.mem_map_of_mem Prod.fst hpt)
      simp only [List.find?]
      rw [show (h.1 == p.1) = false by simpa using hne]
      exact ih hnd.2 hpt

theorem lookupT_some_of_mem {tmap : List (String × NEnvelope)}
    (hnd : (tmap.map Prod.fst).Nodup) {k : String} {e : NEnvelope}
    (h : (k, e) ∈ tmap) : lookupT tmap k = some e := by
  have := find?_key_of_nodup hnd h
  simp only [lookupT, this, Option.map_some']

theorem lookupT_none_of {tmap : List (String × NEnvelope)} {k : String}
    (h : ∀ q ∈ tmap, q.1 ≠ k) : lookupT tmap k = none := by
  simp only [lookupT, Option.map_eq_none']
  rw [List.find?_eq_none]
  intro q hq
  simpa using h q hq

theorem keys_nodup_of_forall₂ {mf : IdMapper} (hWF : mf.WF)
    {envs : List NEnvelope} {tmap : List (String × NEnvelope)}
    (h : List.Forall₂ (fun (e : NEnvelope) (q : String × NEnvelope) =>
      mf.lookup e.id = some q.1 ∧ q.2 = { e with id := q.1 }) envs tmap)
    (hnd : (envs.map NEnvelope.id).Nodup) : (tmap.map Prod.fst).Nodup := by
  induction h with
  | nil => exact List.nodup_nil
  | cons hr hrest ih =>
      rename_i e q es qs
      simp only [List.map_cons, List.nodup_cons] at hnd ⊢
      refine ⟨?_, ih hnd.2⟩
      intro hqmem
      obtain ⟨q', hq', hq'1⟩ := List.mem_map.mp hqmem
      obtain ⟨e', he', hr'⟩ := forall₂_mem_right hrest hq'
      have : e'.id = e.id := IdMapper.lookup_inj hWF (hq'1 ▸ hr'.1) hr.1
      exact hnd.1 (this ▸ List.mem_map_of_mem NEnvelope.id he')

theorem node_ne_root {mf : IdMapper} (hWF : mf.WF) {env : NEnvelope}
    {al : String} (hl : mf.lookup env.id = some al)
    (h5 : ¬(env.id = "0" ∧ env.message_id = "0" ∧ env.subject = "" ∧
      env.from_name.getD env.from_addr = "" ∧ env.date = "")) :
    NEnvelope.as_threaded { env with id := al } ≠ rootNode := by
  intro h
  have hfields : al = "0" ∧ env.message_id = "0" ∧ env.subject = "" ∧
      env.from_name.getD env.from_addr = "" ∧ env.date = "" := by
    have := congrArg TNode.id h
    have h2 := congrArg TNode.message_id h
    have h3 := congrArg TNode.subject h
    have h4 := congrArg TNode.from_ h
    have h5' := congrArg TNode.date h
    exact ⟨this, h2, h3, h4, h5'⟩
  cases mf with
  | Dummy =>
      simp only [IdMapper.lookup, Option.some.injEq] at hl
      exact h5 ⟨by rw [hl, hfields.1], hfields.2.1, hfields.2.2.1,
        hfields.2.2.2.1, hfields.2.2.2.2⟩
  | Mapper s =>
      exact IdMapper.lookup_mapper_ne_root hWF hl hfields.1

theorem addEdge_fresh {g : List (TNode × TNode × Nat)} {a b : TNode} {w : Nat}
    (h : ∀ x ∈ g, ¬(x.1 = a ∧ x.2.1 = b)) : addEdge g a b w = g ++ [(a, b, w)] := by
  unfold addEdge
  rw [if_neg]
  intro hcontra
  rcases hfind : g.find? (fun x => x.1 == a && x.2.1 == b) with _ | x
  · rw [hfind] at hcontra; cases hcontra
  · have hx := List.find?_some hfind
    have hmem := List.mem_of_find?_eq_some hfind
    simp only [Bool.and_eq_true, beq_iff_eq] at hx
    exact h x hmem hx

theorem buildGraph_append (tmap : List (String × NEnvelope))
    {ts : List (String × String × Nat)} {tr : List (TNode × TNode × Nat)}
    (h : List.Forall₂ (fun t' r => edgeTriple tmap t' = some r) ts tr) :
    ∀ g : List (TNode × TNode × Nat),
      ((g ++ tr).map (fun r => (r.1, r.2.1))).Nodup →
      buildGraph tmap ts g = some (g ++ tr) := by
  induction h with
  | nil => intro g _; simp [buildGraph]
  | cons hr hrest ih =>
      rename_i t' r ts' tr'
      intro g hfresh
      obtain ⟨a, b, w⟩ := t'
      have hfr : ∀ x ∈ g, ¬(x.1 = r.1 ∧ x.2.1 = r.2.1) := by
        intro x hx hcontra
        have h1 : (x.1, x.2.1) ∈ (g.map (fun r => (r.1, r.2.1))) :=
          List.mem_map_of_mem _ hx
        have h2 : (r.1, r.2.1) ∈ ((r :: tr').map (fun r => (r.1, r.2.1))) := by
          simp
        rw [List.map_append, List.nodup_append] at hfresh
        exact hfresh.2.2 (hcontra.1 ▸ hcontra.2 ▸ h1) h2
      have hstep : addEdge g r.1 r.2.1 r.2.2 = g ++ [r] := by
        rw [addEdge_fresh hfr]
      rcases hb : lookupT tmap b with _ | eb
      · simp [edgeTriple, hb] at hr
      · rcases ha : lookupT tmap a with _ | ea
        · simp only [edgeTriple, hb, ha, Option.some.injEq] at hr
          have : buildGraph tmap ((a, b, w) :: ts') g =
              buildGraph tmap ts' (addEdge g rootNode eb.as_threaded w) := by
            simp [buildGraph, hb, ha]
          rw [this]
          have hr1 : rootNode = r.1 := by rw [← hr]
          have hr2 : eb.as_threaded = r.2.1 := by rw [← hr]
          have hr3 : w = r.2.2 := by rw [← hr]
          rw [hr1, hr2, hr3, hstep]
          have heq : (g ++ [r]) ++ tr' = g ++ r :: tr' := by
            rw [List.append_assoc]; rfl
          rw [← heq] at hfresh ⊢
          exact ih (g ++ [r]) hfresh
        · simp only [edgeTriple, hb, ha, Option.some.injEq] at hr
          have : buildGraph tmap ((a, b, w) :: ts') g =
              buildGraph tmap ts' (addEdge g ea.as_threaded eb.as_threaded w) := by
            simp [buildGraph, hb, ha]
          rw [this]
          have hr1 : ea.as_threaded = r.1 := by rw [← hr]
          have hr2 : eb.as_threaded = r.2.1 := by rw [← hr]
          have hr3 : w = r.2.2 := by rw [← hr]
          rw [hr1, hr2, hr3, hstep]
          have heq : (g ++ [r]) ++ tr' = g ++ r :: tr' := by
            rw [List.append_assoc]; rfl
          rw [← heq] at hfresh ⊢
          exact ih (g ++ [r]) hfresh

theorem buildGraph_none {tmap : List (String × NEnvelope)}
    {ts : List (String × String × Nat)}
    (h : ∃ t' ∈ ts, lookupT tmap t'.2.1 = none) :
    ∀ g, buildGraph tmap ts g = none := by
  induction ts with
  | nil => simp at h
  | cons hd tl ih =>
      intro g
      obtain ⟨a, b, w⟩ := hd
      rcases hlk : lookupT tmap b with _ | eb
      · simp [buildGraph, hlk]
      · obtain ⟨t', ht', hnone⟩ := h
        rcases List.mem_cons.mp ht' with rfl | htl
        · rw [hlk] at hnone; cases hnone
        · have hrec := ih ⟨t', htl, hnone⟩
          rcases hpl : lookupT tmap a with _ | ea <;>
            simp [buildGraph, hlk, hpl, hrec]

theorem tfb_characterization (m : IdMapper) (t : NThreaded)
    (hWF : m.WF)
    (hndmap : (t.map.map NEnvelope.id).Nodup)
    (hpairs : (t.edges.map (fun e => (e.1, e.2.1))).Nodup)
    (hchild : ∀ e ∈ t.edges, e.2.1 ∈ t.map.map NEnvelope.id)
    (habs : ∀ e1 ∈ t.edges, ∀ e2 ∈ t.edges, e1.2.1 = e2.2.1 →
      e1.1 ∉ t.map.map NEnvelope.id → e2.1 ∉ t.map.map NEnvelope.id →
      e1.1 = e2.1)
    (hroot : ∀ env ∈ t.map, ¬(env.id = "0" ∧ env.message_id = "0" ∧
      env.subject = "" ∧ env.from_name.getD env.from_addr = "" ∧ env.date = "")) :
    ∃ g, ThreadedEnvelopes.try_from_backend m t =
        (some (g, (translateMap (translateEdges m t.edges).2 t.map).1),
         (translateMap (translateEdges m t.edges).2 t.map).2) ∧
      List.Forall₂
        (edgeRel t ((translateMap (translateEdges m t.edges).2 t.map).2))
        t.edges g := by
  have hWFf : (translateMap (translateEdges m t.edges).2 t.map).2.WF :=
    translateMap_WF _ (translateEdges_WF _ hWF)
  set m1 := (translateEdges m t.edges).2 with hm1
  set tmap := (translateMap m1 t.map).1 with htmapdef
  set mf := (translateMap m1 t.map).2 with hmfdef
  have hE : List.Forall₂ (fun (e t' : String × String × Nat) =>
      mf.lookup e.1 = some t'.1 ∧ mf.lookup e.2.1 = some t'.2.1 ∧
      t'.2.2 = e.2.2) t.edges (translateEdges m t.edges).1 :=
    (translateEdges_forall₂ m t.edges).imp
      (fun _ _ h => ⟨translateMap_mono _ h.1, translateMap_mono _ h.2.1, h.2.2⟩)
  have hM : List.Forall₂ (fun (e : NEnvelope) (q : String × NEnvelope) =>
      mf.lookup e.id = some q.1 ∧ q.2 = { e with id := q.1 }) t.map tmap :=
    translateMap_forall₂ m1 t.map
  have hkeys : (tmap.map Prod.fst).Nodup := keys_nodup_of_forall₂ hWFf hM hndmap
  have hlookS : ∀ {nid al : String} {benv : NEnvelope}, benv ∈ t.map →
      benv.id = nid → mf.lookup nid = some al →
      lookupT tmap al = some { benv with id := al } := by
    intro nid al benv hb hid hl
    obtain ⟨q, hq, hrelq⟩ := forall₂_mem_left hM hb
    have hq1 : q.1 = al := by
      have h1 := hrelq.1
      rw [hid, hl] at h1
      exact (Option.some.injEq _ _ ▸ h1).symm
    have hqe : q = (al, { benv with id := al }) := by
      refine Prod.ext hq1 ?_
      rw [hrelq.2, hq1]
    exact lookupT_some_of_mem hkeys (hqe ▸ hq)
  have hlookN : ∀ {nid al : String}, nid ∉ t.map.map NEnvelope.id →
      mf.lookup nid = some al → lookupT tmap al = none := by
    intro nid al hn hl
    apply lookupT_none_of
    intro q hq hcontra
    obtain ⟨env, henv, hrelq⟩ := forall₂_mem_right hM hq
    have h1 : mf.lookup env.id = some al := by rw [hrelq.1, hcontra]
    have : env.id = nid := IdMapper.lookup_inj hWFf h1 hl
    exact hn (this ▸ List.mem_map_of_mem NEnvelope.id henv)
  have hcons : ∀ (es ts : List (String × String × Nat)),
      List.Forall₂ (fun (e t' : String × String × Nat) =>
        mf.lookup e.1 = some t'.1 ∧ mf.lookup e.2.1 = some t'.2.1 ∧
        t'.2.2 = e.2.2) es ts →
      (∀ e ∈ es, e.2.1 ∈ t.map.map NEnvelope.id) →
      ∃ tr, List.Forall₂ (fun t' r => edgeTriple tmap t' = some r) ts tr ∧
        List.Forall₂ (edgeRel t mf) es tr := by
    intro es
    induction es with
    | nil =>
        intro ts hf _
        cases hf
        exact ⟨[], List.Forall₂.nil, List.Forall₂.nil⟩
    | cons e es' ih =>
        intro ts hf hch
        cases hf
        rename_i t' ts' hr hrest
        obtain ⟨tr', htrip', hrel'⟩ :=
          ih ts' hrest (fun e' he' => hch e' (List.mem_cons_of_mem _ he'))
        have hb : e.2.1 ∈ t.map.map NEnvelope.id := hch e (List.mem_cons_self _ _)
        obtain ⟨benv, hbenv, hbid⟩ := List.mem_map.mp hb
        have hTc : lookupT tmap t'.2.1 = some { benv with id := t'.2.1 } :=
          hlookS hbenv hbid hr.2.1
        by_cases hpmem : e.1 ∈ t.map.map NEnvelope.id
        · obtain ⟨aenv, haenv, haid⟩ := List.mem_map.mp hpmem
          have hTp : lookupT tmap t'.1 = some { aenv with id := t'.1 } :=
            hlookS haenv haid hr.1
          refine ⟨(NEnvelope.as_threaded { aenv with id := t'.1 },
              NEnvelope.as_threaded { benv with id := t'.2.1 }, t'.2.2) :: tr',
            .cons ?_ htrip', .cons ?_ hrel'⟩
          · simp [edgeTriple, hTc, hTp]
          · exact ⟨t'.2.1, benv, hr.2.1, hbenv, hbid, rfl, hr.2.2,
              Or.inl ⟨t'.1, aenv, haenv, haid, hr.1, rfl⟩⟩
        · have hTp : lookupT tmap t'.1 = none := hlookN hpmem hr.1
          refine ⟨(rootNode,
              NEnvelope.as_threaded { benv with id := t'.2.1 }, t'.2.2) :: tr',
            .cons ?_ htrip', .cons ?_ hrel'⟩
          · simp [edgeTriple, hTc, hTp]
          · exact ⟨t'.2.1, benv, hr.2.1, hbenv, hbid, rfl, hr.2.2,
              Or.inr ⟨hpmem, rfl⟩⟩
  obtain ⟨tr, hTrip, hR⟩ := hcons t.edges (translateEdges m t.edges).1 hE hchild
  have hSnat : t.edges.Pairwise
      (fun e1 e2 => (e1.1, e1.2.1) ≠ (e2.1, e2.2.1)) := List.pairwise_map.mp hpairs
  have hfreshPW : tr.Pairwise (fun r1 r2 => (r1.1, r1.2.1) ≠ (r2.1, r2.2.1)) := by
    refine forall₂_pairwise_transfer hR hSnat ?_
    intro e1 he1 e2 he2 r1 r2 hrel1 hrel2 hS
    obtain ⟨b1, benv1, hb1l, hbenv1, hbid1, hc1, hw1, hp1⟩ := hrel1
    obtain ⟨b2, benv2, hb2l, hbenv2, hbid2, hc2, hw2, hp2⟩ := hrel2
    intro hpair
    have hpar : r1.1 = r2.1 := (Prod.ext_iff.mp hpair).1
    have hchld : r1.2.1 = r2.2.1 := (Prod.ext_iff.mp hpair).2
    rw [hc1, hc2] at hchld
    have hcb : b1 = b2 := congrArg TNode.id hchld
    have hcnative : e1.2.1 = e2.2.1 :=
      IdMapper.lookup_inj hWFf hb1l (hcb ▸ hb2l)
    rcases hp1 with ⟨a1, aenv1, haenv1, haid1, ha1l, hpar1⟩ | ⟨hnm1, hpar1⟩
    · rcases hp2 with ⟨a2, aenv2, haenv2, haid2, ha2l, hpar2⟩ | ⟨hnm2, hpar2⟩
      · rw [hpar1, hpar2] at hpar
        have hab : a1 = a2 := congrArg TNode.id hpar
        have hpnative : e1.1 = e2.1 :=
          IdMapper.lookup_inj hWFf ha1l (hab ▸ ha2l)
        exact hS (by rw [hpnative, hcnative])
      · have hlk : mf.lookup aenv1.id = some a1 := by rw [haid1]; exact ha1l
        exact node_ne_root hWFf hlk (hroot aenv1 haenv1)
          (by rw [← hpar1, hpar, hpar2])
    · rcases hp2 with ⟨a2, aenv2, haenv2, haid2, ha2l, hpar2⟩ | ⟨hnm2, hpar2⟩
      · have hlk : mf.lookup aenv2.id = some a2 := by rw [haid2]; exact ha2l
        exact node_ne_root hWFf hlk (hroot aenv2 haenv2)
          (by rw [← hpar2, ← hpar, hpar1])
      · have hpe : e1.1 = e2.1 := habs e1 he1 e2 he2 hcnative hnm1 hnm2
        exact hS (by rw [hpe, hcnative])
  have hfresh : ((([] : List (TNode × TNode × Nat)) ++ tr).map
      (fun r => (r.1, r.2.1))).Nodup := by
    simp only [List.nil_append]
    exact List.pairwise_map.mpr hfreshPW
  have hbuild := buildGraph_append tmap hTrip [] hfresh
  refine ⟨tr, ?_, hR⟩
  simp only [ThreadedEnvelopes.try_from_backend]
  rw [← hm1, ← htmapdef, ← hmfdef, hbuild]
  simp

/-- C1 counterexample: two distinct never-fetched parents of the same
child collapse onto a single root edge in the graph map, so the rebuilt
graph has one edge where the native graph had two. -/
theorem c1_counterexample :
    ((ThreadedEnvelopes.try_from_backend .Dummy
        ⟨[⟨"C", "mC", "sC", none, "c@x", none, "t@x", [], "d", false⟩],
          [("Z1", "C", 1), ("Z2", "C", 1)]⟩).1.map
        (fun r => r.1.length)) = some 1 ∧
    ([("Z1", "C", 1), ("Z2", "C", 1)] : List (String × String × Nat)).length = 2 := by
  exact ⟨by decide, rfl⟩

/-- C1 (amended): provided no two distinct native edges collapse onto the
same rebuilt parent/child node pair — i.e. at most one never-fetched
parent per child, and no fetched envelope carrying the synthetic root's
field values — the rebuilt graph has exactly as many edges as the native
graph, and substituting the synthetic root for a never-fetched parent is
the only rewrite applied to an edge. -/
theorem c1_edge_preservation_amended (m : IdMapper) (t : NThreaded)
    (hWF : m.WF)
    (hndmap : (t.map.map NEnvelope.id).Nodup)
    (hpairs : (t.edges.map (fun e => (e.1, e.2.1))).Nodup)
    (hchild : ∀ e ∈ t.edges, e.2.1 ∈ t.map.map NEnvelope.id)
    (habs : ∀ e1 ∈ t.edges, ∀ e2 ∈ t.edges, e1.2.1 = e2.2.1 →
      e1.1 ∉ t.map.map NEnvelope.id → e2.1 ∉ t.map.map NEnvelope.id →
      e1.1 = e2.1)
    (hroot : ∀ env ∈ t.map, ¬(env.id = "0" ∧ env.message_id = "0" ∧
      env.subject = "" ∧ env.from_name.getD env.from_addr = "" ∧ env.date = "")) :
    ∃ g tmap mf, ThreadedEnvelopes.try_from_backend m t = (some (g, tmap), mf) ∧
      g.length = t.edges.length ∧
      List.Forall₂ (fun (e : String × String × Nat) (r : TNode × TNode × Nat) =>
        r.2.2 = e.2.2 ∧
        ((∃ aAlias aenv, aenv ∈ t.map ∧ aenv.id = e.1 ∧
            mf.lookup e.1 = some aAlias ∧
            r.1 = NEnvelope.as_threaded { aenv with id := aAlias }) ∨
         (e.1 ∉ t.map.map NEnvelope.id ∧ r.1 = rootNode))) t.edges g := by
  obtain ⟨g, heq, hR⟩ := tfb_characterization m t hWF hndmap hpairs hchild habs hroot
  refine ⟨g, _, _, heq, hR.length_eq.symm, ?_⟩
  exact hR.imp (fun _ _ h => by
    obtain ⟨bA, benv, hbl, hbm, hbid, hc, hw, hp⟩ := h
    exact ⟨hw, hp⟩)

/-- Witness for C1 at the concrete three-message thread with one
never-fetched parent. -/
theorem c1_edge_preservation_witness :
    IdMapper.WF .Dummy ∧
    (∃ g tmap mf,
      ThreadedEnvelopes.try_from_backend .Dummy sampleThread = (some (g, tmap), mf) ∧
      g.length = sampleThread.edges.length ∧
      List.Forall₂ (fun (e : String × String × Nat) (r : TNode × TNode × Nat) =>
        r.2.2 = e.2.2 ∧
        ((∃ aAlias aenv, aenv ∈ sampleThread.map ∧ aenv.id = e.1 ∧
            mf.lookup e.1 = some aAlias ∧
            r.1 = NEnvelope.as_threaded { aenv with id := aAlias }) ∨
         (e.1 ∉ sampleThread.map.map NEnvelope.id ∧ r.1 = rootNode)))
        sampleThread.edges g) :=
  ⟨True.intro,
    c1_edge_preservation_amended .Dummy sampleThread True.intro (by decide)
      (by decide) (by decide) (by decide) (by decide)⟩

/-- C2 counterexample: with two never-fetched parents of C under
different weights, both native edges map onto the single root→C edge of
the graph map; the later write wins, so the weight-1 edge is not
re-inserted with its own weight as the claim requires. -/
theorem c2_counterexample :
    ((ThreadedEnvelopes.try_from_backend .Dummy
        ⟨[⟨"C", "mC", "sC", none, "c@x", none, "t@x", [], "d", false⟩],
          [("Z1", "C", 1), ("Z2", "C", 2)]⟩).1.map
        (fun r => decide ((rootNode, ⟨"C", "mC", "sC", "c@x", "d"⟩, 1) ∈ r.1))) =
      some false ∧
    ("Z1", "C", 1) ∈ ([("Z1", "C", 1), ("Z2", "C", 2)] : List (String × String × Nat)) := by
  exact ⟨by decide, by decide⟩

/-- C2 (amended): provided at most one never-fetched parent per child (as
in the claim's scenario), every edge whose parent is not among the fetched
envelopes is re-inserted with the synthetic root as parent, keeping its
child and weight. -/
theorem c2_root_substitution_amended (m : IdMapper) (t : NThreaded)
    (hWF : m.WF)
    (hndmap : (t.map.map NEnvelope.id).Nodup)
    (hpairs : (t.edges.map (fun e => (e.1, e.2.1))).Nodup)
    (hchild : ∀ e ∈ t.edges, e.2.1 ∈ t.map.map NEnvelope.id)
    (habs : ∀ e1 ∈ t.edges, ∀ e2 ∈ t.edges, e1.2.1 = e2.2.1 →
      e1.1 ∉ t.map.map NEnvelope.id → e2.1 ∉ t.map.map NEnvelope.id →
      e1.1 = e2.1)
    (hroot : ∀ env ∈ t.map, ¬(env.id = "0" ∧ env.message_id = "0" ∧
      env.subject = "" ∧ env.from_name.getD env.from_addr = "" ∧ env.date = ""))
    (e : String × String × Nat) (he : e ∈ t.edges)
    (habsent : e.1 ∉ t.map.map NEnvelope.id) :
    ∃ g tmap mf bAlias benv,
      ThreadedEnvelopes.try_from_backend m t = (some (g, tmap), mf) ∧
      benv ∈ t.map ∧ benv.id = e.2.1 ∧ mf.lookup e.2.1 = some bAlias ∧
      (rootNode, NEnvelope.as_threaded { benv with id := bAlias }, e.2.2) ∈ g := by
  obtain ⟨g, heq, hR⟩ := tfb_characterization m t hWF hndmap hpairs hchild habs hroot
  obtain ⟨r, hrg, hrel⟩ := forall₂_mem_left hR he
  obtain ⟨bA, benv, hbl, hbm, hbid, hc, hw, hp⟩ := hrel
  rcases hp with ⟨aA, aenv, haenv, haid, _, _⟩ | ⟨_, hparroot⟩
  · exact absurd (haid ▸ List.mem_map_of_mem NEnvelope.id haenv) habsent
  · refine ⟨g, _, _, bA, benv, heq, hbm, hbid, hbl, ?_⟩
    have hreq : r = (rootNode, NEnvelope.as_threaded { benv with id := bA }, e.2.2) := by
      rcases r with ⟨r1, r2, r3⟩
      simp only at hc hw hparroot
      rw [hparroot, hc, hw]
    exact hreq ▸ hrg

/-- Witness for C2: in the concrete scenario the never-fetched parent Z's
edge to C is re-inserted with the root as parent, keeping child and
weight, so C ends with two parent edges. -/
theorem c2_root_substitution_witness :
    ("Z", "C", 2) ∈ sampleThread.edges ∧
    (∃ g tmap mf bAlias benv,
      ThreadedEnvelopes.try_from_backend .Dummy sampleThread = (some (g, tmap), mf) ∧
      benv ∈ sampleThread.map ∧ benv.id = ("Z", "C", 2).2.1 ∧
      mf.lookup ("Z", "C", 2).2.1 = some bAlias ∧
      (rootNode, NEnvelope.as_threaded { benv with id := bAlias },
        ("Z", "C", 2).2.2) ∈ g) :=
  ⟨by decide,
    c2_root_substitution_amended .Dummy sampleThread True.intro (by decide)
      (by decide) (by decide) (by decide) (by decide) ("Z", "C", 2)
      (by decide) (by decide)⟩

/-- C9 counterexample: an edge whose child is not among the fetched
envelopes makes `try_from_backend` panic (the `.unwrap()` on the child),
modelled as `none`: no typed failure is returned to the caller. -/
theorem c9_counterexample :
    (ThreadedEnvelopes.try_from_backend .Dummy
      ⟨[], [("A", "B", 1)]⟩).1 = none := by decide

/-- C9 (amended): when an edge references a child endpoint that is not in
the fetched envelope set, the rebuild does not report a typed failure: it
panics (process-fatal), modelled as `none`.  A missing parent endpoint is
not an error condition at all — it is silently replaced by the synthetic
root. -/
theorem c9_missing_child_panics_amended (m : IdMapper) (t : NThreaded)
    (hWF : m.WF)
    (h : ∃ e ∈ t.edges, e.2.1 ∉ t.map.map NEnvelope.id) :
    (ThreadedEnvelopes.try_from_backend m t).1 = none := by
  obtain ⟨e, he, hnm⟩ := h
  have hWFf : (translateMap (translateEdges m t.edges).2 t.map).2.WF :=
    translateMap_WF _ (translateEdges_WF _ hWF)
  set m1 := (translateEdges m t.edges).2 with hm1
  set tmap := (translateMap m1 t.map).1 with htmapdef
  set mf := (translateMap m1 t.map).2 with hmfdef
  have hE : List.Forall₂ (fun (e t' : String × String × Nat) =>
      mf.lookup e.1 = some t'.1 ∧ mf.lookup e.2.1 = some t'.2.1 ∧
      t'.2.2 = e.2.2) t.edges (translateEdges m t.edges).1 :=
    (translateEdges_forall₂ m t.edges).imp
      (fun _ _ h => ⟨translateMap_mono _ h.1, translateMap_mono _ h.2.1, h.2.2⟩)
  have hM : List.Forall₂ (fun (e : NEnvelope) (q : String × NEnvelope) =>
      mf.lookup e.id = some q.1 ∧ q.2 = { e with id := q.1 }) t.map tmap :=
    translateMap_forall₂ m1 t.map
  obtain ⟨t', ht', hrel⟩ := forall₂_mem_left hE he
  have hnone : lookupT tmap t'.2.1 = none := by
    apply lookupT_none_of
    intro q hq hcontra
    obtain ⟨env, henv, hrelq⟩ := forall₂_mem_right hM hq
    have h1 : mf.lookup env.id = some t'.2.1 := by rw [hrelq.1, hcontra]
    have h2 : env.id = e.2.1 := IdMapper.lookup_inj hWFf h1 hrel.2.1
    exact hnm (h2 ▸ List.mem_map_of_mem NEnvelope.id henv)
  have hbg := buildGraph_none ⟨t', ht', hnone⟩ []
  simp only [ThreadedEnvelopes.try_from_backend]
  rw [← hm1, ← htmapdef, hbg]

/-- Witness for C9 at a concrete listing whose only edge points at a
never-fetched child. -/
theorem c9_missing_child_witness :
    IdMapper.WF .Dummy ∧
    (∃ e ∈ (⟨[sampleEnvA], [("A", "B", 1)]⟩ : NThreaded).edges,
      e.2.1 ∉ (⟨[sampleEnvA], [("A", "B", 1)]⟩ : NThreaded).map.map NEnvelope.id) ∧
    (ThreadedEnvelopes.try_from_backend .Dummy
      ⟨[sampleEnvA], [("A", "B", 1)]⟩).1 = none :=
  ⟨True.intro, by decide,
    c9_missing_child_panics_amended .Dummy ⟨[sampleEnvA], [("A", "B", 1)]⟩
      True.intro (by decide)⟩
